import Mathlib

/-!
Shallow embedding of the bitset library in src/cbitsets/src/cbitsets.c
(header: src/cbitsets/include/cbitsets.h).

Modelling decisions, each matching the C source:
- WORD is unsigned long, 64 bits on the LP64 target, so
  bits_per_word = sizeof(WORD) * 8 = 64.
- A machine word is modelled as a Nat.  The only word operations the source
  performs are bitwise or, bitwise and, and a left shift of 1 by an amount
  strictly below 64; none of these can carry a 64-bit value out of 64 bits,
  so no modular reduction is needed (the invariant that words stay below
  2 ^ 64 is stated separately as wf).
- The C struct stores the word array and its length; here the length is
  List.length of the word list, which the source keeps equal to the
  allocated size at all times.
- An out-of-range array read (undefined behavior in C) is modelled as
  reading 0; every claim below restricts to in-range indices, where the
  model and the C code agree exactly.
- bitset_create computes its word count with floating-point arithmetic:
  ceil((double)num_bits / bits_per_word).  The conversion of a 32-bit
  unsigned to double is exact, and the IEEE division rounds the exact
  rational quotient to the nearest double.  roundDouble below models that
  rounding step on rationals: round to 53 significant bits in the normal
  range (the tie-breaking rule is irrelevant here because the claims are
  about inputs where no rounding occurs at all).
-/

/-- sizeof(WORD) * 8 where WORD = unsigned long (64-bit on the LP64 target). -/
def bits_per_word : Nat := 64

/-- The C struct bitset: a word array; its size field always equals the
length of the array in this program, so the length is kept implicit. -/
structure bitset where
  words : List Nat
deriving DecidableEq

/-- Machine-word invariant of the C representation: every stored word is a
64-bit value. -/
def wf (s : bitset) : Prop := ∀ w ∈ s.words, w < 2 ^ bits_per_word

/-- IEEE-754 double-precision rounding of an exact rational value in the
normal range: keep 53 significant bits.  Models the rounding performed by
the double division in bitset_create. -/
def roundDouble (q : ℚ) : ℚ :=
  if q = 0 then 0
  else
    ((round (q * (2 : ℚ) ^ ((52 : ℤ) - Int.log 2 |q|)) : ℤ) : ℚ) *
      (2 : ℚ) ^ (Int.log 2 |q| - (52 : ℤ))

/-- The word count computed by bitset_create:
(size_t) ceil((double)num_bits / bits_per_word). -/
def create_size (num_bits : Nat) : Nat :=
  (⌈roundDouble ((num_bits : ℚ) / (bits_per_word : ℚ))⌉).toNat

/-- bitset_create: allocate create_size words, zero-initialized (calloc). -/
def bitset_create (num_bits : Nat) : bitset :=
  ⟨List.replicate (create_size num_bits) 0⟩

/-- bitset_set: or the word at index / bits_per_word with
1UL << (index % bits_per_word). -/
def bitset_set (s : bitset) (index : Nat) : bitset :=
  ⟨s.words.set (index / bits_per_word)
    (s.words.getD (index / bits_per_word) 0 ||| 1 <<< (index % bits_per_word))⟩

/-- bitset_fill: call bitset_set on each index, in sequence order. -/
def bitset_fill (s : bitset) (indices : List Nat) : bitset :=
  indices.foldl bitset_set s

/-- is_disjoint: for each word index i below a.size, test
a.words[i] & b.words[i]; return false at the first nonzero conjunction,
true if the loop finishes. -/
def is_disjoint (a b : bitset) : Bool :=
  (List.range a.words.length).all fun i => a.words.getD i 0 &&& b.words.getD i 0 == 0

/-- not_disjoint: the independent second loop of the source; returns true at
the first word pair with nonzero conjunction, false if the loop finishes. -/
def not_disjoint (a b : bitset) : Bool :=
  (List.range a.words.length).any fun i => a.words.getD i 0 &&& b.words.getD i 0 != 0

/-- Observation of one bit.  Modelled from the spec: the source has no
single-bit read accessor; the spec's representation invariant states that
bit i is bit (i mod bits_per_word) of word (i div bits_per_word). -/
def bit_read (s : bitset) (i : Nat) : Bool :=
  (s.words.getD (i / bits_per_word) 0).testBit (i % bits_per_word)

/-- Sequential single-bit writes, the reference form the spec compares
bitset_fill against: set(b, i1); ...; set(b, in). -/
def seq_set : bitset → List Nat → bitset
  | b, [] => b
  | b, i :: rest => seq_set (bitset_set b i) rest

/-- A call of the mutating public interface. -/
inductive BitsetOp where
  | setOp (i : Nat)
  | fillOp (l : List Nat)
deriving DecidableEq

/-- Run one interface call. -/
def apply_op (b : bitset) : BitsetOp → bitset
  | .setOp i => bitset_set b i
  | .fillOp l => bitset_fill b l

/-- Run a sequence of interface calls. -/
def apply_ops (b : bitset) (ops : List BitsetOp) : bitset :=
  ops.foldl apply_op b

/-- Validity (in-range indices) of one interface call against a bitset. -/
def op_valid (b : bitset) : BitsetOp → Prop
  | .setOp i => i < b.words.length * bits_per_word
  | .fillOp l => ∀ i ∈ l, i < b.words.length * bits_per_word

/- ------------------------------------------------------------------ -/
/- Helper lemmas -/

theorem getD_set_self_of_lt (l : List Nat) (k a : Nat) (h : k < l.length) :
    (l.set k a).getD k 0 = a := by
  simp [List.getD_eq_getElem?_getD, List.getElem?_set_self h]

theorem getD_set_ne (l : List Nat) (k j a : Nat) (h : k ≠ j) :
    (l.set k a).getD j 0 = l.getD j 0 := by
  simp [List.getD_eq_getElem?_getD, List.getElem?_set_ne h]

theorem getD_oob (l : List Nat) (k : Nat) (h : l.length ≤ k) :
    l.getD k 0 = 0 := by
  simp [List.getD_eq_getElem?_getD, List.getElem?_eq_none h]

theorem all_eq_not_any (l : List Nat) (f : Nat → Bool) :
    l.all f = !(l.any fun i => !(f i)) := by
  induction l with
  | nil => rfl
  | cons x xs ih => simp [List.all_cons, List.any_cons, ih, Bool.not_or]

/-- C1: for bitsets of equal word count, is_disjoint is the boolean negation
of not_disjoint; in particular two zero-word bitsets give true and false. -/
theorem is_disjoint_eq_not_not_disjoint (a b : bitset)
    (h : a.words.length = b.words.length) :
    is_disjoint a b = !not_disjoint a b := by
  unfold is_disjoint not_disjoint
  rw [all_eq_not_any]
  simp only [bne]

theorem is_disjoint_eq_not_not_disjoint_witness :
    (bitset.mk [] : bitset).words.length = (bitset.mk [] : bitset).words.length ∧
      is_disjoint ⟨[]⟩ ⟨[]⟩ = !not_disjoint ⟨[]⟩ ⟨[]⟩ :=
  ⟨rfl, is_disjoint_eq_not_not_disjoint ⟨[]⟩ ⟨[]⟩ rfl⟩

theorem testBit_mask (k j : Nat) : (1 <<< k).testBit j = decide (k = j) := by
  rw [Nat.shiftLeft_eq, one_mul, Nat.testBit_two_pow]

/-- Reading bit j after bitset_set at an in-range word: the bit at position
i becomes set, every other position keeps its value. -/
theorem bit_read_set (s : bitset) (i j : Nat)
    (hw : i / bits_per_word < s.words.length) :
    bit_read (bitset_set s i) j = (bit_read s j || decide (j = i)) := by
  unfold bit_read bitset_set
  by_cases hk : j / bits_per_word = i / bits_per_word
  · simp only [hk, getD_set_self_of_lt _ _ _ hw, Nat.testBit_or, testBit_mask]
    congr 1
    rw [decide_eq_decide]
    simp only [bits_per_word] at hk ⊢
    omega
  · rw [getD_set_ne _ _ _ _ fun h => hk h.symm]
    have : j ≠ i := by
      intro hji
      exact hk (by rw [hji])
    simp [this]

/-- C4: after bitset_set at a valid index, that bit reads as set and every
other bit position reads exactly as before. -/
theorem bitset_set_sets_only_index (b : bitset) (i : Nat)
    (h : i < b.words.length * bits_per_word) :
    bit_read (bitset_set b i) i = true ∧
      ∀ j, j ≠ i → bit_read (bitset_set b i) j = bit_read b j := by
  have hw : i / bits_per_word < b.words.length :=
    (Nat.div_lt_iff_lt_mul (by decide)).mpr h
  constructor
  · rw [bit_read_set b i i hw]
    simp
  · intro j hj
    rw [bit_read_set b i j hw]
    simp [hj]

theorem bitset_set_sets_only_index_witness :
    (3 : Nat) < (bitset.mk [0] : bitset).words.length * bits_per_word ∧
      (bit_read (bitset_set ⟨[0]⟩ 3) 3 = true ∧
        ∀ j, j ≠ 3 → bit_read (bitset_set ⟨[0]⟩ 3) j = bit_read ⟨[0]⟩ j) :=
  ⟨by decide, bitset_set_sets_only_index ⟨[0]⟩ 3 (by decide)⟩

theorem or_or_self (w m : Nat) : (w ||| m) ||| m = w ||| m :=
  Nat.eq_of_testBit_eq fun t => by simp [Nat.testBit_or, Bool.or_assoc]

/-- C6: bitset_set is idempotent at every valid index. -/
theorem bitset_set_idempotent (b : bitset) (i : Nat)
    (h : i < b.words.length * bits_per_word) :
    bitset_set (bitset_set b i) i = bitset_set b i := by
  have hw : i / bits_per_word < b.words.length :=
    (Nat.div_lt_iff_lt_mul (by decide)).mpr h
  unfold bitset_set
  congr 1
  rw [getD_set_self_of_lt _ _ _ hw, List.set_set, or_or_self]

theorem bitset_set_idempotent_witness :
    (5 : Nat) < (bitset.mk [0] : bitset).words.length * bits_per_word ∧
      bitset_set (bitset_set ⟨[0]⟩ 5) 5 = bitset_set ⟨[0]⟩ 5 :=
  ⟨by decide, bitset_set_idempotent ⟨[0]⟩ 5 (by decide)⟩

/-- C7: is_disjoint is symmetric on bitsets of equal word count. -/
theorem is_disjoint_symm (a b : bitset)
    (h : a.words.length = b.words.length) :
    is_disjoint a b = is_disjoint b a := by
  unfold is_disjoint
  rw [h]
  congr 1
  funext i
  rw [Nat.and_comm]

theorem is_disjoint_symm_witness :
    (bitset.mk [1] : bitset).words.length = (bitset.mk [2] : bitset).words.length ∧
      is_disjoint ⟨[1]⟩ ⟨[2]⟩ = is_disjoint ⟨[2]⟩ ⟨[1]⟩ :=
  ⟨rfl, is_disjoint_symm ⟨[1]⟩ ⟨[2]⟩ rfl⟩

theorem bitset_set_oob (b : bitset) (i : Nat)
    (h : b.words.length ≤ i / bits_per_word) : bitset_set b i = b := by
  unfold bitset_set
  rw [List.set_eq_of_length_le h]

theorem length_set_words (b : bitset) (i : Nat) :
    (bitset_set b i).words.length = b.words.length := by
  simp [bitset_set]

theorem or_right_comm_nat (w x y : Nat) : (w ||| x) ||| y = (w ||| y) ||| x :=
  Nat.eq_of_testBit_eq fun t => by
    simp only [Nat.testBit_or]
    cases w.testBit t <;> cases x.testBit t <;> cases y.testBit t <;> rfl

theorem bitset_set_comm (b : bitset) (i j : Nat) :
    bitset_set (bitset_set b i) j = bitset_set (bitset_set b j) i := by
  by_cases hi : b.words.length ≤ i / bits_per_word
  · rw [bitset_set_oob b i hi,
      bitset_set_oob (bitset_set b j) i (by rw [length_set_words]; exact hi)]
  by_cases hj : b.words.length ≤ j / bits_per_word
  · rw [bitset_set_oob b j hj,
      bitset_set_oob (bitset_set b i) j (by rw [length_set_words]; exact hj)]
  push_neg at hi hj
  by_cases hk : i / bits_per_word = j / bits_per_word
  · unfold bitset_set
    simp only [hk, length_set_words]
    rw [getD_set_self_of_lt _ _ _ hj, getD_set_self_of_lt _ _ _ hj,
      List.set_set, List.set_set, or_right_comm_nat]
  · unfold bitset_set
    rw [getD_set_ne _ _ _ _ hk, getD_set_ne _ _ _ _ fun h => hk h.symm,
      List.set_comm _ _ _ hk]

theorem foldl_set_perm {l1 l2 : List Nat} (hp : l1.Perm l2) :
    ∀ b : bitset, l1.foldl bitset_set b = l2.foldl bitset_set b := by
  induction hp with
  | nil => intro b; rfl
  | cons x hp ih => intro b; simp only [List.foldl_cons]; exact ih _
  | swap x y l => intro b; simp only [List.foldl_cons]; rw [bitset_set_comm]
  | trans hp1 hp2 ih1 ih2 => intro b; rw [ih1 b, ih2 b]

theorem fill_eq_seq (b : bitset) (l : List Nat) : bitset_fill b l = seq_set b l := by
  induction l generalizing b with
  | nil => rfl
  | cons x xs ih =>
    simp only [bitset_fill, List.foldl_cons, seq_set] at ih ⊢
    exact ih _

/-- C5: bitset_fill equals the sequence of single-bit sets in order, and the
result is unchanged under any permutation of the index sequence. -/
theorem bitset_fill_seq_perm (b : bitset) (l l2 : List Nat) (hp : l.Perm l2)
    (hvalid : ∀ i ∈ l, i < b.words.length * bits_per_word) :
    bitset_fill b l = seq_set b l ∧ bitset_fill b l = bitset_fill b l2 := by
  refine ⟨fill_eq_seq b l, ?_⟩
  unfold bitset_fill
  exact foldl_set_perm hp b

theorem bitset_fill_seq_perm_witness :
    List.Perm [1, 2] [2, 1] ∧
      (∀ i ∈ [1, 2], i < (bitset.mk [0, 0] : bitset).words.length * bits_per_word) ∧
      (bitset_fill (bitset.mk [0, 0]) [1, 2] = seq_set (bitset.mk [0, 0]) [1, 2] ∧
        bitset_fill (bitset.mk [0, 0]) [1, 2] = bitset_fill (bitset.mk [0, 0]) [2, 1]) :=
  ⟨List.Perm.swap 2 1 [], by decide,
    bitset_fill_seq_perm (bitset.mk [0, 0]) [1, 2] [2, 1] (List.Perm.swap 2 1 []) (by decide)⟩

theorem bit_read_set_mono (s : bitset) (i j : Nat) (h : bit_read s j = true) :
    bit_read (bitset_set s i) j = true := by
  by_cases hw : i / bits_per_word < s.words.length
  · rw [bit_read_set s i j hw, h, Bool.true_or]
  · rw [bitset_set_oob s i (le_of_not_lt hw)]
    exact h

theorem bit_read_fill_mono (s : bitset) (l : List Nat) (j : Nat)
    (h : bit_read s j = true) : bit_read (bitset_fill s l) j = true := by
  induction l generalizing s with
  | nil => exact h
  | cons x xs ih =>
    simp only [bitset_fill, List.foldl_cons] at ih ⊢
    exact ih _ (bit_read_set_mono s x j h)

theorem length_fill_words (b : bitset) (l : List Nat) :
    (bitset_fill b l).words.length = b.words.length := by
  induction l generalizing b with
  | nil => rfl
  | cons x xs ih =>
    simp only [bitset_fill, List.foldl_cons] at ih ⊢
    rw [ih (bitset_set b x), length_set_words]

theorem length_apply_op (b : bitset) (op : BitsetOp) :
    (apply_op b op).words.length = b.words.length := by
  cases op with
  | setOp i => exact length_set_words b i
  | fillOp l => exact length_fill_words b l

theorem op_valid_of_length_eq {b b2 : bitset}
    (h : b2.words.length = b.words.length) {op : BitsetOp}
    (hv : op_valid b op) : op_valid b2 op := by
  cases op with
  | setOp i => simpa [op_valid, h] using hv
  | fillOp l => simpa [op_valid, h] using hv

theorem bit_read_apply_op_mono (b : bitset) (op : BitsetOp) (j : Nat)
    (h : bit_read b j = true) : bit_read (apply_op b op) j = true := by
  cases op with
  | setOp i => exact bit_read_set_mono b i j h
  | fillOp l => exact bit_read_fill_mono b l j h

/-- C9: bit setting is monotone: every bit set in b stays set across any
sequence of valid bitset_set / bitset_fill calls; no public operation
clears a set bit. -/
theorem bit_setting_monotone (b : bitset) (ops : List BitsetOp) (j : Nat)
    (hvalid : ∀ op ∈ ops, op_valid b op) (h : bit_read b j = true) :
    bit_read (apply_ops b ops) j = true := by
  induction ops generalizing b with
  | nil => exact h
  | cons op rest ih =>
    simp only [apply_ops, List.foldl_cons] at ih ⊢
    exact ih (apply_op b op)
      (fun op2 hop2 =>
        op_valid_of_length_eq (length_apply_op b op)
          (hvalid op2 (List.mem_cons_of_mem _ hop2)))
      (bit_read_apply_op_mono b op j h)

theorem bit_setting_monotone_witness :
    (∀ op ∈ [BitsetOp.setOp 5], op_valid (bitset.mk [8]) op) ∧
      bit_read (bitset.mk [8]) 3 = true ∧
      bit_read (apply_ops (bitset.mk [8]) [BitsetOp.setOp 5]) 3 = true := by
  refine ⟨?_, by decide, ?_⟩
  · intro op hop
    simp only [List.mem_singleton] at hop
    subst hop
    show (5 : Nat) < (bitset.mk [8] : bitset).words.length * bits_per_word
    decide
  · apply bit_setting_monotone (bitset.mk [8]) [BitsetOp.setOp 5] 3
    · intro op hop
      simp only [List.mem_singleton] at hop
      subst hop
      show (5 : Nat) < (bitset.mk [8] : bitset).words.length * bits_per_word
      decide
    · decide

theorem getD_mem_of_lt (l : List Nat) (i : Nat) (h : i < l.length) :
    l.getD i 0 ∈ l := by
  rw [List.getD_eq_getElem?_getD, List.getElem?_eq_getElem h]
  exact List.getElem_mem h

/-- C3: for bitsets of equal word count (with 64-bit words), is_disjoint is
true iff no bit position is set in both, iff every wordwise conjunction is
zero. -/
theorem is_disjoint_characterization (a b : bitset)
    (h : a.words.length = b.words.length) (ha : wf a) (hb : wf b) :
    (is_disjoint a b = true ↔
        ∀ j, ¬(bit_read a j = true ∧ bit_read b j = true)) ∧
      (is_disjoint a b = true ↔
        ∀ i < a.words.length, a.words.getD i 0 &&& b.words.getD i 0 = 0) := by
  have hword : is_disjoint a b = true ↔
      ∀ i < a.words.length, a.words.getD i 0 &&& b.words.getD i 0 = 0 := by
    simp only [is_disjoint, List.all_eq_true, List.mem_range, beq_iff_eq]
  have hbits : (∀ i < a.words.length, a.words.getD i 0 &&& b.words.getD i 0 = 0) ↔
      ∀ j, ¬(bit_read a j = true ∧ bit_read b j = true) := by
    constructor
    · intro hall j hj
      obtain ⟨hja, hjb⟩ := hj
      by_cases hk : j / bits_per_word < a.words.length
      · have h0 := hall _ hk
        have hand : (a.words.getD (j / bits_per_word) 0 &&&
            b.words.getD (j / bits_per_word) 0).testBit (j % bits_per_word) = true := by
          rw [Nat.testBit_and]
          unfold bit_read at hja hjb
          rw [hja, hjb]
          rfl
        rw [h0, Nat.zero_testBit] at hand
        exact Bool.false_ne_true hand
      · push_neg at hk
        unfold bit_read at hja
        rw [getD_oob _ _ hk, Nat.zero_testBit] at hja
        exact Bool.false_ne_true hja
    · intro hnone i hi
      apply Nat.eq_of_testBit_eq
      intro t
      rw [Nat.testBit_and, Nat.zero_testBit]
      by_cases ht : t < bits_per_word
      · have hj := hnone (i * bits_per_word + t)
        unfold bit_read at hj
        have hdiv : (i * bits_per_word + t) / bits_per_word = i := by
          simp only [bits_per_word] at ht ⊢
          omega
        have hmod : (i * bits_per_word + t) % bits_per_word = t := by
          simp only [bits_per_word] at ht ⊢
          omega
        rw [hdiv, hmod] at hj
        cases hx : (a.words.getD i 0).testBit t
        · rfl
        · cases hy : (b.words.getD i 0).testBit t
          · rfl
          · exact absurd ⟨hx, hy⟩ hj
      · push_neg at ht
        have hlt : a.words.getD i 0 < 2 ^ t :=
          lt_of_lt_of_le (ha _ (getD_mem_of_lt a.words i hi))
            (Nat.pow_le_pow_right (by decide) ht)
        rw [Nat.testBit_lt_two_pow hlt]
        rfl
  exact ⟨hword.trans hbits, hword⟩

theorem is_disjoint_characterization_witness :
    ((bitset.mk [3] : bitset).words.length = (bitset.mk [4] : bitset).words.length ∧
        wf (bitset.mk [3]) ∧ wf (bitset.mk [4])) ∧
      ((is_disjoint (bitset.mk [3]) (bitset.mk [4]) = true ↔
          ∀ j, ¬(bit_read (bitset.mk [3]) j = true ∧ bit_read (bitset.mk [4]) j = true)) ∧
        (is_disjoint (bitset.mk [3]) (bitset.mk [4]) = true ↔
          ∀ i < (bitset.mk [3] : bitset).words.length,
            (bitset.mk [3] : bitset).words.getD i 0 &&&
              (bitset.mk [4] : bitset).words.getD i 0 = 0)) :=
  ⟨⟨rfl, by unfold wf; decide, by unfold wf; decide⟩,
    is_disjoint_characterization (bitset.mk [3]) (bitset.mk [4]) rfl
      (by unfold wf; decide) (by unfold wf; decide)⟩

/-- C8: bitset_create 0 allocates zero words, and is_disjoint on two such
empty bitsets returns true vacuously. -/
theorem create_zero_empty_disjoint :
    (bitset_create 0).words = [] ∧
      is_disjoint (bitset_create 0) (bitset_create 0) = true := by
  have h : create_size 0 = 0 := by
    simp [create_size, roundDouble]
  constructor
  · simp [bitset_create, h]
  · simp [is_disjoint, bitset_create, h]

theorem replicate_getD_zero (k m : Nat) : (List.replicate k 0).getD m 0 = 0 := by
  rw [List.getD_eq_getElem?_getD, List.getElem?_replicate]
  split <;> rfl

/-- Every unsigned 32-bit quotient num_bits / 64 is exactly representable in
double precision, so the modelled rounding step returns it unchanged. -/
theorem roundDouble_exact_div64 (n : Nat) (h : n < 2 ^ 32) :
    roundDouble ((n : ℚ) / (bits_per_word : ℚ)) = (n : ℚ) / (bits_per_word : ℚ) := by
  rw [show ((bits_per_word : ℕ) : ℚ) = 64 by norm_num [bits_per_word]]
  rcases Nat.eq_zero_or_pos n with rfl | hn
  · norm_num [roundDouble]
  · have hq : (0 : ℚ) < (n : ℚ) / 64 := by positivity
    have hne : ((n : ℚ) / 64) ≠ 0 := ne_of_gt hq
    have habs : |(n : ℚ) / 64| = (n : ℚ) / 64 := abs_of_pos hq
    unfold roundDouble
    rw [if_neg hne, habs]
    set e : ℤ := Int.log 2 ((n : ℚ) / 64) with he
    have h1 : (n : ℚ) < 2 ^ (32 : ℕ) := by exact_mod_cast h
    have he26 : e < 26 := by
      have hlt : (n : ℚ) / 64 < ((2 : ℕ) : ℚ) ^ (26 : ℤ) := by
        have h2 : ((2 : ℕ) : ℚ) ^ (26 : ℤ) = (2 : ℚ) ^ (26 : ℕ) := by
          rw [show ((2 : ℕ) : ℚ) = (2 : ℚ) by norm_num]
          rw [show (26 : ℤ) = ((26 : ℕ) : ℤ) from rfl, zpow_natCast]
        rw [h2, div_lt_iff (by norm_num : (0 : ℚ) < 64)]
        have h3 : (2 : ℚ) ^ (26 : ℕ) * 64 = 2 ^ (32 : ℕ) := by norm_num
        rw [h3]
        exact h1
      exact (Int.lt_zpow_iff_log_lt (by norm_num) hq).mp hlt
    have h46 : (0 : ℤ) ≤ 46 - e := by omega
    have hz : (2 : ℚ) ^ ((46 - e).toNat : ℕ) = (2 : ℚ) ^ ((46 : ℤ) - e) := by
      rw [← zpow_natCast (2 : ℚ), Int.toNat_of_nonneg h46]
    have hkey : ((n : ℚ) / 64) * (2 : ℚ) ^ ((52 : ℤ) - e) =
        ((n * 2 ^ ((46 - e).toNat) : ℕ) : ℚ) := by
      push_cast
      rw [hz]
      rw [show (64 : ℚ) = (2 : ℚ) ^ (6 : ℤ) by norm_num]
      rw [div_eq_mul_inv, ← zpow_neg, mul_assoc,
        ← zpow_add₀ (by norm_num : (2 : ℚ) ≠ 0)]
      rw [show (-(6 : ℤ)) + (52 - e) = 46 - e by omega]
    rw [hkey, round_natCast, Int.cast_natCast, ← hkey, mul_assoc,
      ← zpow_add₀ (by norm_num : (2 : ℚ) ≠ 0)]
    rw [show ((52 : ℤ) - e) + (e - 52) = 0 by omega, zpow_zero, mul_one]

theorem ceil_natCast_div64 (n : Nat) :
    ⌈(n : ℚ) / 64⌉ = (((n + 63) / 64 : ℕ) : ℤ) := by
  rw [Int.ceil_eq_iff]
  constructor
  · rw [lt_div_iff (by norm_num : (0 : ℚ) < 64)]
    have hz2 : ((((n + 63) / 64 : ℕ) : ℤ) : ℚ) * 64 < (n : ℚ) + 64 := by
      exact_mod_cast (by omega : (n + 63) / 64 * 64 < n + 64)
    linarith
  · rw [div_le_iff (by norm_num : (0 : ℚ) < 64)]
    exact_mod_cast (by omega : n ≤ (n + 63) / 64 * 64)

theorem create_size_eq (n : Nat) (h : n < 2 ^ 32) :
    create_size n = (n + bits_per_word - 1) / bits_per_word := by
  unfold create_size
  rw [roundDouble_exact_div64 n h,
    show ((bits_per_word : ℕ) : ℚ) = 64 by norm_num [bits_per_word],
    ceil_natCast_div64, Int.toNat_natCast]
  simp only [bits_per_word]
  omega

/-- C2: bitset_create allocates exactly ceil(num_bits / bits_per_word)
words, all zero, so every bit in [0, num_bits) reads as unset. -/
theorem create_allocates_zeroed (n : Nat) (h : n < 2 ^ 32) :
    (bitset_create n).words.length = (n + bits_per_word - 1) / bits_per_word ∧
      (∀ w ∈ (bitset_create n).words, w = 0) ∧
      ∀ i < n, bit_read (bitset_create n) i = false := by
  refine ⟨?_, ?_, ?_⟩
  · simp [bitset_create, create_size_eq n h]
  · intro w hw
    exact List.eq_of_mem_replicate hw
  · intro i hi
    unfold bit_read bitset_create
    rw [replicate_getD_zero]
    exact Nat.zero_testBit _

theorem create_allocates_zeroed_witness :
    (100 : Nat) < 2 ^ 32 ∧
      ((bitset_create 100).words.length = (100 + bits_per_word - 1) / bits_per_word ∧
        (∀ w ∈ (bitset_create 100).words, w = 0) ∧
        ∀ i < 100, bit_read (bitset_create 100) i = false) :=
  ⟨by norm_num, create_allocates_zeroed 100 (by norm_num)⟩

/-- C10: the floating-point word count ceil((double)num_bits / 64) incurs no
rounding error for any unsigned 32-bit num_bits, and equals the exact
integer ceiling (num_bits + bits_per_word - 1) / bits_per_word; at 0 the
computation is well-defined and yields 0. -/
theorem fp_ceil_matches_integer_ceiling (n : Nat) (h : n < 2 ^ 32) :
    roundDouble ((n : ℚ) / (bits_per_word : ℚ)) = (n : ℚ) / (bits_per_word : ℚ) ∧
      ⌈roundDouble ((n : ℚ) / (bits_per_word : ℚ))⌉ =
        (((n + bits_per_word - 1) / bits_per_word : ℕ) : ℤ) := by
  refine ⟨roundDouble_exact_div64 n h, ?_⟩
  rw [roundDouble_exact_div64 n h,
    show ((bits_per_word : ℕ) : ℚ) = 64 by norm_num [bits_per_word],
    ceil_natCast_div64]
  have hh : (n + 63) / 64 = (n + bits_per_word - 1) / bits_per_word := by
    simp only [bits_per_word]
    omega
  rw [hh]

theorem fp_ceil_matches_integer_ceiling_witness :
    (0 : Nat) < 2 ^ 32 ∧
      (roundDouble ((0 : ℕ) / (bits_per_word : ℚ)) = ((0 : ℕ) : ℚ) / (bits_per_word : ℚ) ∧
        ⌈roundDouble (((0 : ℕ) : ℚ) / (bits_per_word : ℚ))⌉ =
          (((0 + bits_per_word - 1) / bits_per_word : ℕ) : ℤ)) :=
  ⟨by norm_num, fp_ceil_matches_integer_ceiling 0 (by norm_num)⟩
